import Mathlib

/-!
Shallow embedding of the Markdown-to-Jira conversion core of
`gitlab2jira.py` (functions `create_jira_document`,
`convert_markdown_to_jira` with its nested helpers `flush_list` and
`parse_inline_formatting`, and `process_gitlab_description`), together
with proofs of the specification claims about it.

Python strings are modelled as `List Char`; a Python `dict` document
node becomes a constructor of an inductive type.  All functions are
executable.  Lines fed to the per-line regexes come from
`str.split('\n')` and therefore contain no newline character; the
regex embeddings below are the actions of the corresponding patterns
on such newline-free lines.
-/

namespace Gitlab2Jira

/-- The whitespace characters stripped by Python `str.strip()` /
`str.rstrip()` and matched by the regex class `\s` (ASCII range). -/
def isPySpace (c : Char) : Bool :=
  c = ' ' || c = '\t' || c = '\n' || c = '\r' || c = Char.ofNat 11 || c = Char.ofNat 12

/-- Python `str.rstrip()`: drop trailing whitespace. -/
def rstripLine (l : List Char) : List Char :=
  (l.reverse.dropWhile isPySpace).reverse

/-- Python `str.strip()`: drop leading and trailing whitespace. -/
def pyStrip (l : List Char) : List Char :=
  rstripLine (l.dropWhile isPySpace)

/-- The backtick character, delimiter of the inline code pattern. -/
def btick : Char := Char.ofNat 96

/-- A text mark of a styled span: Python mark-type strings
`"strong"`, `"em"`, `"code"`. -/
inductive Mark where
  | strong
  | em
  | code
  deriving DecidableEq, Repr

/-- An inline node of the Jira document (`{"type":"text", ...}` or
`{"type":"hardBreak"}` in the Python dicts).  `text s` is a plain
text node, `styled s m` a text node with one formatting mark,
`link s href` a text node with a link mark. -/
inductive Inline where
  | text (s : List Char)
  | styled (s : List Char) (m : Mark)
  | link (s href : List Char)
  | hardBreak
  deriving DecidableEq, Repr

/-- The `text` field of an inline node (`hardBreak` carries none). -/
def spanText : Inline → List Char
  | .text s => s
  | .styled s _ => s
  | .link s _ => s
  | .hardBreak => []

/-- Concatenation of the `text` fields of a span sequence. -/
def concatTexts (spans : List Inline) : List Char :=
  (spans.map spanText).flatten

/-- Non-greedy scan used by the lazy group `(.*?)` followed by a
closing delimiter: find the shortest prefix of `s` made of
non-newline characters that is followed by `close`; return that
prefix (the captured group) and the text after the delimiter. -/
def scanTo (close : List Char) : List Char → Option (List Char × List Char)
  | [] => if close.isEmpty then some ([], []) else none
  | c :: rest =>
    if close.isPrefixOf (c :: rest) then
      some ([], (c :: rest).drop close.length)
    else if c = '\n' then none
    else
      match scanTo close rest with
      | some (inner, after) => some (c :: inner, after)
      | none => none

/-- Anchored match of `\*\*(.*?)\*\*` (bold): the captured group and
the length of the whole match. -/
def matchBold (s : List Char) : Option (List Char × Nat) :=
  if ['*', '*'].isPrefixOf s then
    match scanTo ['*', '*'] (s.drop 2) with
    | some (inner, _) => some (inner, inner.length + 4)
    | none => none
  else none

/-- Anchored match of `\*(.*?)\*` (italic). -/
def matchItalic (s : List Char) : Option (List Char × Nat) :=
  match s with
  | c :: rest =>
    if c = '*' then
      match scanTo ['*'] rest with
      | some (inner, _) => some (inner, inner.length + 2)
      | none => none
    else none
  | [] => none

/-- Anchored match of the inline-code pattern (backtick, lazy group,
backtick). -/
def matchCode (s : List Char) : Option (List Char × Nat) :=
  match s with
  | c :: rest =>
    if c = btick then
      match scanTo [btick] rest with
      | some (inner, _) => some (inner, inner.length + 2)
      | none => none
    else none
  | [] => none

/-- Scan for `(.*?)\]\((.*?)\)` after the opening bracket of the link
pattern: lazily extend the first group until a position where the
literal `](` is followed by a second lazy group closed by a
parenthesis; on failure of the second part the engine backtracks by
extending the first group.  Returns both captured groups and the text
after the match. -/
def linkTail : List Char → Option (List Char × List Char × List Char)
  | [] => none
  | c :: rest =>
    if [']', '('].isPrefixOf (c :: rest) then
      match scanTo [')'] ((c :: rest).drop 2) with
      | some (g2, after) => some ([], g2, after)
      | none =>
        if c = '\n' then none
        else
          match linkTail rest with
          | some (g1, g2, after) => some (c :: g1, g2, after)
          | none => none
    else if c = '\n' then none
    else
      match linkTail rest with
      | some (g1, g2, after) => some (c :: g1, g2, after)
      | none => none

/-- Anchored match of `\[(.*?)\]\((.*?)\)` (link): the two captured
groups and the length of the whole match. -/
def matchLink (s : List Char) : Option (List Char × List Char × Nat) :=
  match s with
  | c :: rest =>
    if c = '[' then
      match linkTail rest with
      | some (g1, g2, _) => some (g1, g2, g1.length + g2.length + 4)
      | none => none
    else none
  | [] => none

/-- Bold entry of the pattern table: emitted span and full match length. -/
def tryBold (s : List Char) : Option (Inline × Nat) :=
  (matchBold s).map fun r => (Inline.styled r.1 Mark.strong, r.2)

/-- Italic entry of the pattern table. -/
def tryItalic (s : List Char) : Option (Inline × Nat) :=
  (matchItalic s).map fun r => (Inline.styled r.1 Mark.em, r.2)

/-- Code entry of the pattern table. -/
def tryCode (s : List Char) : Option (Inline × Nat) :=
  (matchCode s).map fun r => (Inline.styled r.1 Mark.code, r.2)

/-- Link entry of the pattern table. -/
def tryLink (s : List Char) : Option (Inline × Nat) :=
  (matchLink s).map fun r => (Inline.link r.1 r.2.1, r.2.2)

/-- The pattern table of `parse_inline_formatting`, in declaration
order: bold, italic, code, link. -/
def patterns : List (List Char → Option (Inline × Nat)) :=
  [tryBold, tryItalic, tryCode, tryLink]

/-- `re.search`: leftmost match of an anchored matcher, with the
offset at which it starts. -/
def reSearch (p : List Char → Option (Inline × Nat)) :
    List Char → Option (Nat × Inline × Nat)
  | [] => (p []).map fun r => (0, r)
  | c :: rest =>
    match p (c :: rest) with
    | some r => some (0, r)
    | none => (reSearch p rest).map fun r => (r.1 + 1, r.2)

/-- One step of the earliest-match selection loop: a candidate
replaces the current best exactly when its offset is strictly
smaller (`match.start() + pos < earliest_pos`); the initial threshold
is the length of the text (`earliest_pos = len(text)`). -/
def pickStep {α : Type} (n : Nat) (best cand : Option (Nat × α)) :
    Option (Nat × α) :=
  match cand with
  | some (i, r) =>
    match best with
    | some (bi, _) => if i < bi then some (i, r) else best
    | none => if i < n then some (i, r) else none
  | none => best

/-- The body of the per-iteration pattern loop: run `re.search` for
every pattern on the remaining text and keep the earliest match,
ties resolved in favour of the earlier pattern. -/
def findEarliest (s : List Char) : Option (Nat × Inline × Nat) :=
  (patterns.map fun p => reSearch p s).foldl (pickStep s.length) none

/-- The scanning loop of `parse_inline_formatting`, on the suffix of
the text that starts at the cursor.  `fuel` bounds the recursion
depth; every step consumes at least one character, so any
`fuel > length` computes the loop exactly. -/
def parseInlineAux : Nat → List Char → List Inline
  | 0, _ => []
  | fuel + 1, s =>
    match findEarliest s with
    | none => if s.isEmpty then [] else [Inline.text s]
    | some (i, sp, len) =>
      (if 0 < i then [Inline.text (s.take i)] else []) ++
        sp :: parseInlineAux fuel (s.drop (i + len))

/-- `parse_inline_formatting`: tokenize one line into inline spans;
an empty result (possible only for the empty line) falls back to a
single plain-text span holding the whole line. -/
def parse_inline_formatting (text : List Char) : List Inline :=
  let r := parseInlineAux (text.length + 1) text
  if r.isEmpty then [Inline.text text] else r

/-- A block node of the Jira document.  A bullet list carries the
span sequences of its items: in the emitted dicts each item is one
`listItem` wrapping exactly one `paragraph` holding those spans,
which is the only shape `flush_list` ever builds. -/
inductive Block where
  | paragraph (content : List Inline)
  | heading (level : Nat) (content : List Inline)
  | bulletList (items : List (List Inline))
  | rule
  | panel (panelType : List Char) (content : List Block)

/-- The sentinel description `"No description provided"`. -/
def sentinel : List Char := "No description provided".data

/-- Python `str.split('\n')`: split on every newline; never empty,
one more piece than there are newlines. -/
def splitLines : List Char → List (List Char)
  | [] => [[]]
  | c :: rest =>
    if c = '\n' then [] :: splitLines rest
    else
      match splitLines rest with
      | l :: ls => (c :: l) :: ls
      | [] => [[c]]

/-- Action of the heading regex on a newline-free line:
one to six hash characters, at least one whitespace character, then
a non-empty remainder captured greedily (`\s+` takes the maximal
whitespace run; if nothing remains after it the engine backtracks to
leave exactly one whitespace character for the final group).
Returns the hash count and the captured heading text. -/
def headingMatch (line : List Char) : Option (Nat × List Char) :=
  let n := (line.takeWhile (· = '#')).length
  if 1 ≤ n ∧ n ≤ 6 then
    let rest := line.drop n
    let ws := rest.takeWhile isPySpace
    let body := rest.dropWhile isPySpace
    if ws.isEmpty then none
    else if body.isEmpty then
      if 2 ≤ ws.length then some (n, [ws.getLastD ' ']) else none
    else some (n, body)
  else none

/-- Action of the bullet-item regex on a newline-free line:
any leading whitespace, a bullet character, at least one whitespace
character, then a non-empty remainder captured as for headings.
Returns the captured item text. -/
def listMatch (line : List Char) : Option (List Char) :=
  match line.dropWhile isPySpace with
  | [] => none
  | c :: rest =>
    if c = '-' || c = '*' || c = '+' then
      let ws := rest.takeWhile isPySpace
      let body := rest.dropWhile isPySpace
      if ws.isEmpty then none
      else if body.isEmpty then
        if 2 ≤ ws.length then some [ws.getLastD ' '] else none
      else some body
    else none

/-- The state threaded through the per-line loop of
`convert_markdown_to_jira`: the blocks emitted so far and the
pending bullet-list items (`current_list_items`). -/
abbrev ConvState := List Block × List (List Inline)

/-- `flush_list`: if bullet items are pending, emit them as one
`bulletList` block and clear the accumulator. -/
def flush_list (st : ConvState) : ConvState :=
  if st.2.isEmpty then st else (st.1 ++ [Block.bulletList st.2], [])

/-- The body of the per-line loop: trim trailing whitespace, then
dispatch on blank line, heading, bullet item, or paragraph. -/
def processLine (st : ConvState) (rawLine : List Char) : ConvState :=
  let line := rstripLine rawLine
  if line.isEmpty then flush_list st
  else
    match headingMatch line with
    | some (level, htext) =>
      let st := flush_list st
      (st.1 ++ [Block.heading (min level 6) (parse_inline_formatting htext)], st.2)
    | none =>
      match listMatch line with
      | some itemText => (st.1, st.2 ++ [parse_inline_formatting itemText])
      | none =>
        let st := flush_list st
        if (pyStrip line).isEmpty then st
        else (st.1 ++ [Block.paragraph (parse_inline_formatting line)], st.2)

/-- `convert_markdown_to_jira`: empty input and the sentinel yield no
blocks; otherwise fold the per-line dispatch over the lines and
flush any pending list at the end. -/
def convert_markdown_to_jira (markdown_text : List Char) : List Block :=
  if markdown_text.isEmpty || pyStrip markdown_text = sentinel then []
  else (flush_list ((splitLines markdown_text).foldl processLine ([], []))).1

/-- The Jira document root: `{"type":"doc","version":1,"content":[...]}`. -/
structure Document where
  version : Nat
  content : List Block

/-- The author record nested in the merge-request metadata; `none`
models an absent `name` key. -/
structure Author where
  name : Option (List Char)
  deriving Repr

/-- The merge-request metadata dict, with `none` modelling an absent
key (a Python dict access on it raises `KeyError`). -/
structure MRData where
  author : Option Author
  source_branch : Option (List Char)
  target_branch : Option (List Char)
  state : Option (List Char)
  created_at : Option (List Char)
  deriving Repr

/-- The fixed lead paragraph: plain `"Created from "`, a link span
`"GitLab Merge Request"` pointing at the merge-request URL, plain `":"`. -/
def headerParagraph (mr_url : List Char) : Block :=
  Block.paragraph
    [Inline.text "Created from ".data,
     Inline.link "GitLab Merge Request".data mr_url,
     Inline.text ":".data]

/-- The MR-details panel: an info panel holding a level-3 heading and
one paragraph listing the metadata fields. -/
def mrDetailsPanel (authorName sourceBranch targetBranch mrState createdAt : List Char) :
    Block :=
  Block.panel "info".data
    [Block.heading 3 [Inline.text "MR Details".data],
     Block.paragraph
       ([Inline.text "Author: ".data, Inline.styled authorName Mark.strong,
         Inline.hardBreak] ++
        [Inline.text "Source Branch: ".data, Inline.styled sourceBranch Mark.code,
         Inline.hardBreak] ++
        [Inline.text "Target Branch: ".data, Inline.styled targetBranch Mark.code,
         Inline.hardBreak] ++
        [Inline.text "State: ".data, Inline.styled mrState Mark.strong,
         Inline.hardBreak] ++
        [Inline.text "Created: ".data, Inline.styled createdAt Mark.strong])]

/-- `processed_description or "No description provided"`: Python `or`
falls through to the sentinel on `None` and on the empty string. -/
def origDescription (processed_description : Option (List Char)) : List Char :=
  match processed_description with
  | some d => if d.isEmpty then sentinel else d
  | none => sentinel

/-- `create_jira_document`: the lead paragraph, a rule, the converted
description (followed by another rule when it is non-empty), and the
MR-details panel.  A missing metadata field makes the dict accesses
fail, modelled as `none`: no document is produced. -/
def create_jira_document (mr_url : List Char) (mr_data : MRData)
    (processed_description : Option (List Char)) : Option Document := do
  let od := origDescription processed_description
  let body :=
    if pyStrip od ≠ sentinel then
      let mc := convert_markdown_to_jira od
      mc ++ (if mc.isEmpty then [] else [Block.rule])
    else []
  let author ← mr_data.author
  let authorName ← author.name
  let sourceBranch ← mr_data.source_branch
  let targetBranch ← mr_data.target_branch
  let mrState ← mr_data.state
  let createdAt ← mr_data.created_at
  pure ⟨1, headerParagraph mr_url :: Block.rule :: body ++
          [mrDetailsPanel authorName sourceBranch targetBranch mrState createdAt]⟩

/-- The literal `/uploads/` that opens the second capture group of
the image pattern. -/
def uploadsChars : List Char := "/uploads/".data

/-- Length of the optional brace-attribute suffix
(a brace-delimited run of non-closing-brace characters) at the start
of `s`; zero when the optional group does not match. -/
def braceSuffixLen : List Char → Nat
  | c :: rest =>
    if c = '{' then
      match rest.dropWhile (· ≠ '}') with
      | d :: _ => if d = '}' then (rest.takeWhile (· ≠ '}')).length + 2 else 0
      | [] => 0
    else 0
  | [] => 0

/-- Closing step of the image pattern after the captured path: a
closing parenthesis must follow, and the whole-match length adds the
optional brace-attribute suffix. -/
def imageClose (alt p : List Char) : List Char → Option (List Char × List Char × Nat)
  | e1 :: r5 =>
    if e1 = ')' then
      some (alt, uploadsChars ++ p,
        alt.length + uploadsChars.length + p.length + 5 + braceSuffixLen r5)
    else none
  | [] => none

/-- Path step of the image pattern: after the literal `/uploads/` the
class `[^)]+` captures a maximal non-empty run of characters other
than a closing parenthesis. -/
def imagePath (alt r3 : List Char) : Option (List Char × List Char × Nat) :=
  let p := r3.takeWhile (· ≠ ')')
  if p.isEmpty then none
  else imageClose alt p (r3.dropWhile (· ≠ ')'))

/-- Step of the image pattern after the alt group: the literal `](`
must follow, then the literal `/uploads/` prefix of the path group. -/
def imageAfterAlt (alt : List Char) : List Char → Option (List Char × List Char × Nat)
  | d1 :: d2 :: r2 =>
    if d1 = ']' && d2 = '(' then
      if uploadsChars.isPrefixOf r2 then imagePath alt (r2.drop uploadsChars.length)
      else none
    else none
  | [_] => none
  | [] => none

/-- Anchored match of the image pattern
`!\[([^\]]*)\]\((/uploads/[^)]+)\)(\{[^}]*\})?`: the alt text, the
relative path (including the `/uploads/` prefix), and the length of
the whole match including any brace suffix.  The character classes
make the pattern deterministic: each group is a maximal run, so the
match decomposes into the sequential steps above. -/
def imageMatchAt : List Char → Option (List Char × List Char × Nat)
  | c1 :: c2 :: rest =>
    if c1 = '!' && c2 = '[' then
      imageAfterAlt (rest.takeWhile (· ≠ ']')) (rest.dropWhile (· ≠ ']'))
    else none
  | [_] => none
  | [] => none

/-- Python `str(numeric_project_id)` for the (non-negative) project id. -/
def natToChars (n : Nat) : List Char := (Nat.repr n).data

/-- `gitlab_url.rstrip('/')`. -/
def rstripSlash (url : List Char) : List Char :=
  (url.reverse.dropWhile (· = '/')).reverse

/-- The marker characters of the `links` replacement: the image
emoji of the source, byte-for-byte as the file stores it. -/
def linksMarker : List Char :=
  [Char.ofNat 0xF0, Char.ofNat 0x178, Char.ofNat 0x2013,
   Char.ofNat 0xBC, Char.ofNat 0xEF, Char.ofNat 0xB8]

/-- `replace_image`: build the replacement text for one image match
from the captured alt text and relative path, per handling mode. -/
def replace_image (gitlab_url : List Char) (pid : Nat) (mode : List Char)
    (alt relPath : List Char) : List Char :=
  let altText := if alt.isEmpty then "image".data else alt
  let absoluteUrl :=
    rstripSlash gitlab_url ++ "/-/project/".data ++ natToChars pid ++ relPath
  if mode = "strip".data then
    "[Image: ".data ++ altText ++ " - see original MR]".data
  else if mode = "jira-syntax".data then
    '!' :: absoluteUrl ++ ['!']
  else
    linksMarker ++ " **".data ++ altText ++ "**: ".data ++ absoluteUrl

/-- The `re.sub` scan: at each position substitute the leftmost image
match and continue after it, or copy one character.  `fuel` bounds
the recursion; every step consumes at least one character. -/
def subImagesAux (gitlab_url : List Char) (pid : Nat) (mode : List Char) :
    Nat → List Char → List Char
  | 0, _ => []
  | _ + 1, [] => []
  | fuel + 1, c :: rest =>
    match imageMatchAt (c :: rest) with
    | some (alt, relPath, len) =>
      replace_image gitlab_url pid mode alt relPath ++
        subImagesAux gitlab_url pid mode fuel ((c :: rest).drop len)
    | none => c :: subImagesAux gitlab_url pid mode fuel rest

/-- `process_gitlab_description`: empty input is returned unchanged;
otherwise rewrite every image reference per the handling mode. -/
def process_gitlab_description (description gitlab_url : List Char)
    (pid : Nat) (mode : List Char) : List Char :=
  if description.isEmpty then description
  else subImagesAux gitlab_url pid mode (description.length + 1) description

/-! ## Shape lemmas for the inline matchers -/

theorem scanTo_shape (close : List Char) :
    ∀ s inner after, scanTo close s = some (inner, after) →
      s = inner ++ close ++ after := by
  intro s
  induction s with
  | nil =>
    intro inner after h
    simp only [scanTo] at h
    split at h
    · next hc =>
      simp only [Option.some.injEq, Prod.mk.injEq] at h
      simp [List.isEmpty_iff.mp hc, ← h.1, ← h.2]
    · simp at h
  | cons c rest ih =>
    intro inner after h
    simp only [scanTo] at h
    split at h
    · next hp =>
      obtain ⟨t, ht⟩ := List.isPrefixOf_iff_prefix.mp hp
      simp only [Option.some.injEq, Prod.mk.injEq] at h
      rw [← h.1, ← h.2, ← ht, List.nil_append, List.drop_left]
    · split at h
      · simp at h
      · split at h
        · next inner' after' hrec =>
          simp only [Option.some.injEq, Prod.mk.injEq] at h
          rw [← h.1, ← h.2]
          simpa using ih inner' after' hrec
        · simp at h

theorem matchBold_shape (s inner : List Char) (len : Nat)
    (h : matchBold s = some (inner, len)) :
    ∃ after, s = ('*' :: '*' :: inner ++ ['*', '*']) ++ after ∧
      len = inner.length + 4 := by
  simp only [matchBold] at h
  split at h
  · next hp =>
    split at h
    · next inner' after hsc =>
      simp only [Option.some.injEq, Prod.mk.injEq] at h
      obtain ⟨hi, hl⟩ := h
      obtain ⟨t, ht⟩ := List.isPrefixOf_iff_prefix.mp hp
      subst ht
      simp only [List.cons_append, List.nil_append, List.drop_succ_cons,
        List.drop_zero] at hsc
      have hts := scanTo_shape _ _ _ _ hsc
      rw [← hi, ← hl]
      exact ⟨after, by rw [hts]; simp, rfl⟩
    · simp at h
  · simp at h

theorem matchItalic_shape (s inner : List Char) (len : Nat)
    (h : matchItalic s = some (inner, len)) :
    ∃ after, s = ('*' :: inner ++ ['*']) ++ after ∧ len = inner.length + 2 := by
  match s with
  | [] => simp [matchItalic] at h
  | c :: rest =>
    simp only [matchItalic] at h
    split at h
    · next hc =>
      subst hc
      split at h
      · next inner' after hsc =>
        simp only [Option.some.injEq, Prod.mk.injEq] at h
        obtain ⟨hi, hl⟩ := h
        have hts := scanTo_shape _ _ _ _ hsc
        rw [← hi, ← hl]
        exact ⟨after, by rw [hts]; simp, rfl⟩
      · simp at h
    · simp at h

theorem matchCode_shape (s inner : List Char) (len : Nat)
    (h : matchCode s = some (inner, len)) :
    ∃ after, s = (btick :: inner ++ [btick]) ++ after ∧
      len = inner.length + 2 := by
  match s with
  | [] => simp [matchCode] at h
  | c :: rest =>
    simp only [matchCode] at h
    split at h
    · next hc =>
      subst hc
      split at h
      · next inner' after hsc =>
        simp only [Option.some.injEq, Prod.mk.injEq] at h
        obtain ⟨hi, hl⟩ := h
        have hts := scanTo_shape _ _ _ _ hsc
        rw [← hi, ← hl]
        exact ⟨after, by rw [hts]; simp, rfl⟩
      · simp at h
    · simp at h

theorem linkTail_shape :
    ∀ s g1 g2 after, linkTail s = some (g1, g2, after) →
      s = g1 ++ ']' :: '(' :: g2 ++ ')' :: after := by
  intro s
  induction s with
  | nil => intro g1 g2 after h; simp [linkTail] at h
  | cons c rest ih =>
    intro g1 g2 after h
    simp only [linkTail] at h
    split at h
    · next hp =>
      obtain ⟨t, ht⟩ := List.isPrefixOf_iff_prefix.mp hp
      simp only [List.cons_append, List.nil_append, List.cons.injEq] at ht
      obtain ⟨hc, hrest⟩ := ht
      subst hc
      subst hrest
      split at h
      · next g2' after' hsc =>
        simp only [List.drop_succ_cons, List.drop_zero] at hsc
        simp only [Option.some.injEq, Prod.mk.injEq] at h
        obtain ⟨h1, h2, h3⟩ := h
        rw [← h1, ← h2, ← h3]
        rw [scanTo_shape _ _ _ _ hsc]
        simp
      · split at h
        · simp at h
        · split at h
          · next g1' g2' after' hrec =>
            simp only [Option.some.injEq, Prod.mk.injEq] at h
            obtain ⟨h1, h2, h3⟩ := h
            rw [← h1, ← h2, ← h3, ih _ _ _ hrec]
            simp
          · simp at h
    · split at h
      · simp at h
      · split at h
        · next g1' g2' after' hrec =>
          simp only [Option.some.injEq, Prod.mk.injEq] at h
          obtain ⟨h1, h2, h3⟩ := h
          rw [← h1, ← h2, ← h3, ih _ _ _ hrec]
          simp
        · simp at h

theorem matchLink_shape (s g1 g2 : List Char) (len : Nat)
    (h : matchLink s = some (g1, g2, len)) :
    ∃ after, s = ('[' :: g1 ++ ']' :: '(' :: g2 ++ [')']) ++ after ∧
      len = g1.length + g2.length + 4 := by
  match s with
  | [] => simp [matchLink] at h
  | c :: rest =>
    simp only [matchLink] at h
    split at h
    · next hc =>
      subst hc
      split at h
      · next g1' g2' after hlt =>
        simp only [Option.some.injEq, Prod.mk.injEq] at h
        obtain ⟨h1, h2, h3⟩ := h
        rw [← h1, ← h2, ← h3]
        exact ⟨after, by rw [linkTail_shape _ _ _ _ hlt]; simp, rfl⟩
      · simp at h
    · simp at h

/-! ## Characterization of the earliest-match selection -/

theorem reSearch_some (p : List Char → Option (Inline × Nat)) :
    ∀ s i r, reSearch p s = some (i, r) →
      p (s.drop i) = some r ∧ ∀ j, j < i → p (s.drop j) = none := by
  intro s
  induction s with
  | nil =>
    intro i r h
    simp only [reSearch] at h
    match hp : p [] with
    | some r' =>
      rw [hp] at h
      simp only [Option.map_some', Option.some.injEq, Prod.mk.injEq] at h
      obtain ⟨h1, h2⟩ := h
      exact ⟨by rw [← h1, List.drop_nil, hp, h2], by omega⟩
    | none => rw [hp] at h; simp at h
  | cons c rest ih =>
    intro i r h
    simp only [reSearch] at h
    match hp : p (c :: rest) with
    | some r' =>
      rw [hp] at h
      simp only [Option.some.injEq, Prod.mk.injEq] at h
      obtain ⟨h1, h2⟩ := h
      exact ⟨by rw [← h1, List.drop_zero, hp, h2], by omega⟩
    | none =>
      rw [hp] at h
      match hrs : reSearch p rest with
      | some (i', r'') =>
        rw [hrs] at h
        simp only [Option.map_some', Option.some.injEq, Prod.mk.injEq] at h
        obtain ⟨h1, h2⟩ := h
        obtain ⟨ihp, ihn⟩ := ih i' r'' hrs
        refine ⟨by rw [← h1, List.drop_succ_cons, ihp, h2], ?_⟩
        intro j hj
        match j with
        | 0 => simpa using hp
        | j' + 1 =>
          rw [List.drop_succ_cons]
          exact ihn j' (by omega)
      | none => rw [hrs] at h; simp at h

theorem reSearch_none (p : List Char → Option (Inline × Nat)) :
    ∀ s, reSearch p s = none → ∀ j, p (s.drop j) = none := by
  intro s
  induction s with
  | nil =>
    intro h j
    simp only [reSearch] at h
    rw [List.drop_nil]
    match hp : p [] with
    | some r' => rw [hp] at h; simp at h
    | none => rfl
  | cons c rest ih =>
    intro h j
    simp only [reSearch] at h
    match hp : p (c :: rest) with
    | some r' => rw [hp] at h; simp at h
    | none =>
      rw [hp] at h
      match j with
      | 0 => simpa using hp
      | j' + 1 =>
        rw [List.drop_succ_cons]
        refine ih ?_ j'
        match hrs : reSearch p rest with
        | some r'' => rw [hrs] at h; simp at h
        | none => rfl

theorem patterns_nil : ∀ p ∈ patterns, p [] = none := by
  intro p hp
  simp only [patterns, List.mem_cons, List.not_mem_nil, or_false] at hp
  rcases hp with rfl | rfl | rfl | rfl <;> rfl

theorem reSearch_lt_length {p : List Char → Option (Inline × Nat)}
    (hp : p ∈ patterns) {s : List Char} {i : Nat} {r : Inline × Nat}
    (h : reSearch p s = some (i, r)) : i < s.length := by
  obtain ⟨h1, _⟩ := reSearch_some p s i r h
  by_contra hge
  rw [List.drop_eq_nil_of_le (by omega), patterns_nil p hp] at h1
  cases h1

theorem pickStep_some_lt {α : Type} {n : Nat} {acc c : Option (Nat × α)}
    (hacc : ∀ bi br, acc = some (bi, br) → bi < n) :
    ∀ i r, pickStep n acc c = some (i, r) → i < n := by
  intro i r h
  match c with
  | none => exact hacc i r h
  | some (ci, cr) =>
    match acc with
    | some (bi, br) =>
      simp only [pickStep] at h
      split at h
      · next hlt =>
        simp only [Option.some.injEq, Prod.mk.injEq] at h
        have := hacc bi br rfl
        omega
      · exact hacc i r h
    | none =>
      simp only [pickStep] at h
      split at h
      · next hlt =>
        simp only [Option.some.injEq, Prod.mk.injEq] at h
        omega
      · cases h

theorem pick_fold_spec {α : Type} (n : Nat) :
    ∀ (cands : List (Option (Nat × α))) (acc : Option (Nat × α)),
      (∀ bi br, acc = some (bi, br) → bi < n) →
      ∀ i r, cands.foldl (pickStep n) acc = some (i, r) →
        i < n ∧
        ((acc = some (i, r) ∧
           ∀ c ∈ cands, ∀ i' r', c = some (i', r') → i ≤ i') ∨
         (∃ pre post, cands = pre ++ some (i, r) :: post ∧
           (∀ bi br, acc = some (bi, br) → i < bi) ∧
           (∀ c ∈ pre, ∀ i' r', c = some (i', r') → i < i') ∧
           (∀ c ∈ post, ∀ i' r', c = some (i', r') → i ≤ i'))) := by
  intro cands
  induction cands with
  | nil =>
    intro acc hacc i r h
    simp only [List.foldl_nil] at h
    exact ⟨hacc i r h, Or.inl ⟨h, by simp⟩⟩
  | cons c cs ih =>
    intro acc hacc i r h
    simp only [List.foldl_cons] at h
    obtain ⟨hlt, hcase⟩ :=
      ih (pickStep n acc c) (fun bi br hb => pickStep_some_lt hacc bi br hb) i r h
    refine ⟨hlt, ?_⟩
    match c with
    | none =>
      have hid : pickStep n acc none = acc := rfl
      rw [hid] at hcase
      rcases hcase with ⟨heq, hall⟩ | ⟨pre, post, hsplit, haccs, hpre, hpost⟩
      · refine Or.inl ⟨heq, ?_⟩
        intro x hx i' r' hx'
        rcases List.mem_cons.mp hx with hxe | hxm
        · rw [hxe] at hx'; cases hx'
        · exact hall x hxm i' r' hx'
      · refine Or.inr ⟨none :: pre, post, by rw [hsplit]; rfl, haccs, ?_, hpost⟩
        intro x hx i' r' hx'
        rcases List.mem_cons.mp hx with hxe | hxm
        · rw [hxe] at hx'; cases hx'
        · exact hpre x hxm i' r' hx'
    | some (ci, cr) =>
      match acc with
      | some (bi, br) =>
        have hbi : bi < n := hacc bi br rfl
        by_cases hcb : ci < bi
        · have hps : pickStep n (some (bi, br)) (some (ci, cr)) = some (ci, cr) := by
            simp [pickStep, hcb]
          rw [hps] at hcase
          rcases hcase with ⟨heq, hall⟩ | ⟨pre, post, hsplit, haccs, hpre, hpost⟩
          · simp only [Option.some.injEq, Prod.mk.injEq] at heq
            obtain ⟨h1, h2⟩ := heq
            refine Or.inr ⟨[], cs, by rw [← h1, ← h2]; rfl, ?_, by simp, hall⟩
            intro bi' br' hb
            simp only [Option.some.injEq, Prod.mk.injEq] at hb
            omega
          · have hici : i < ci := haccs ci cr rfl
            refine Or.inr ⟨some (ci, cr) :: pre, post, by rw [hsplit]; rfl, ?_, ?_, hpost⟩
            · intro bi' br' hb
              simp only [Option.some.injEq, Prod.mk.injEq] at hb
              omega
            · intro x hx i' r' hx'
              rcases List.mem_cons.mp hx with hxe | hxm
              · rw [hxe] at hx'
                simp only [Option.some.injEq, Prod.mk.injEq] at hx'
                omega
              · exact hpre x hxm i' r' hx'
        · have hps : pickStep n (some (bi, br)) (some (ci, cr)) = some (bi, br) := by
            simp [pickStep, hcb]
          rw [hps] at hcase
          rcases hcase with ⟨heq, hall⟩ | ⟨pre, post, hsplit, haccs, hpre, hpost⟩
          · simp only [Option.some.injEq, Prod.mk.injEq] at heq
            obtain ⟨h1, h2⟩ := heq
            refine Or.inl ⟨by rw [← h1, ← h2], ?_⟩
            intro x hx i' r' hx'
            rcases List.mem_cons.mp hx with hxe | hxm
            · rw [hxe] at hx'
              simp only [Option.some.injEq, Prod.mk.injEq] at hx'
              omega
            · exact hall x hxm i' r' hx'
          · have hibi : i < bi := haccs bi br rfl
            refine Or.inr ⟨some (ci, cr) :: pre, post, by rw [hsplit]; rfl, ?_, ?_, hpost⟩
            · intro bi' br' hb
              simp only [Option.some.injEq, Prod.mk.injEq] at hb
              omega
            · intro x hx i' r' hx'
              rcases List.mem_cons.mp hx with hxe | hxm
              · rw [hxe] at hx'
                simp only [Option.some.injEq, Prod.mk.injEq] at hx'
                omega
              · exact hpre x hxm i' r' hx'
      | none =>
        by_cases hcn : ci < n
        · have hps : pickStep n none (some (ci, cr)) = some (ci, cr) := by
            simp [pickStep, hcn]
          rw [hps] at hcase
          rcases hcase with ⟨heq, hall⟩ | ⟨pre, post, hsplit, haccs, hpre, hpost⟩
          · simp only [Option.some.injEq, Prod.mk.injEq] at heq
            obtain ⟨h1, h2⟩ := heq
            refine Or.inr ⟨[], cs, by rw [← h1, ← h2]; rfl, by simp, by simp, hall⟩
          · have hici : i < ci := haccs ci cr rfl
            refine Or.inr ⟨some (ci, cr) :: pre, post, by rw [hsplit]; rfl, by simp, ?_, hpost⟩
            intro x hx i' r' hx'
            rcases List.mem_cons.mp hx with hxe | hxm
            · rw [hxe] at hx'
              simp only [Option.some.injEq, Prod.mk.injEq] at hx'
              omega
            · exact hpre x hxm i' r' hx'
        · have hps : pickStep n none (some (ci, cr)) = none := by
            simp [pickStep, hcn]
          rw [hps] at hcase
          rcases hcase with ⟨heq, hall⟩ | ⟨pre, post, hsplit, haccs, hpre, hpost⟩
          · cases heq
          · refine Or.inr ⟨some (ci, cr) :: pre, post, by rw [hsplit]; rfl, by simp, ?_, hpost⟩
            intro x hx i' r' hx'
            rcases List.mem_cons.mp hx with hxe | hxm
            · rw [hxe] at hx'
              simp only [Option.some.injEq, Prod.mk.injEq] at hx'
              omega
            · exact hpre x hxm i' r' hx'

theorem findEarliest_spec (s : List Char) (i : Nat) (r : Inline × Nat)
    (h : findEarliest s = some (i, r)) :
    (∃ (k : Nat) (p : List Char → Option (Inline × Nat)),
      patterns[k]? = some p ∧ p (s.drop i) = some r ∧
      (∀ (k' : Nat) (p' : List Char → Option (Inline × Nat)),
        k' < k → patterns[k']? = some p' → p' (s.drop i) = none)) ∧
    (∀ i', i' < i → ∀ p ∈ patterns, p (s.drop i') = none) := by
  obtain ⟨hlt, hcase⟩ :=
    pick_fold_spec s.length (patterns.map fun p => reSearch p s) none
      (by simp) i r h
  rcases hcase with ⟨heq, _⟩ | ⟨pre, post, hsplit, _, hpre, hpost⟩
  · cases heq
  · have hk : (patterns.map fun p => reSearch p s)[pre.length]? =
        some (some (i, r)) := by
      rw [hsplit, List.getElem?_append_right (Nat.le_refl _)]
      simp
    rw [List.getElem?_map] at hk
    have hx : ∃ p, patterns[pre.length]? = some p ∧ reSearch p s = some (i, r) := by
      match hq : patterns[pre.length]? with
      | some p => rw [hq] at hk; exact ⟨p, rfl, by simpa using hk⟩
      | none => rw [hq] at hk; simp at hk
    obtain ⟨p, hq, hrs⟩ := hx
    constructor
    · refine ⟨pre.length, p, hq, (reSearch_some p s i r hrs).1, ?_⟩
      intro k' p' hk' hq'
      have hc : (patterns.map fun p => reSearch p s)[k']? = some (reSearch p' s) := by
        rw [List.getElem?_map, hq']; rfl
      have hcpre : pre[k']? = some (reSearch p' s) := by
        rw [hsplit] at hc
        rwa [List.getElem?_append, if_pos hk'] at hc
      have hmem : reSearch p' s ∈ pre := by
        obtain ⟨hb, he⟩ := List.getElem?_eq_some.mp hcpre
        exact he ▸ List.getElem_mem hb
      match hrs' : reSearch p' s with
      | none => exact reSearch_none p' s hrs' i
      | some (i'', r'') =>
        have : i < i'' := hpre _ hmem i'' r'' (by rw [← hrs'])
        exact (reSearch_some p' s i'' r'' hrs').2 i (by omega)
    · intro i' hi' p' hp'
      have hmem : reSearch p' s ∈ pre ++ some (i, r) :: post := by
        rw [← hsplit]
        exact List.mem_map_of_mem _ hp'
      match hrs' : reSearch p' s with
      | none => exact reSearch_none p' s hrs' i'
      | some (i'', r'') =>
        rw [hrs'] at hmem
        have hle : i ≤ i'' := by
          rcases List.mem_append.mp hmem with hmp | hmc
          · have := hpre _ hmp i'' r'' rfl; omega
          · rcases List.mem_cons.mp hmc with hme | hmp
            · simp only [Option.some.injEq, Prod.mk.injEq] at hme
              omega
            · exact hpost _ hmp i'' r'' rfl
        exact (reSearch_some p' s i'' r'' hrs').2 i' (by omega)

theorem findEarliest_shape (s : List Char) (i : Nat) (sp : Inline) (len : Nat)
    (h : findEarliest s = some (i, sp, len)) :
    ∃ m, s.drop i = m ++ s.drop (i + len) ∧ m.length = len ∧ 1 ≤ len ∧
      List.Sublist (spanText sp) m := by
  obtain ⟨⟨k, p, hk, hp, _⟩, _⟩ := findEarliest_spec s i (sp, len) h
  have hmem : p ∈ patterns := by
    obtain ⟨hb, he⟩ := List.getElem?_eq_some.mp hk
    exact he ▸ List.getElem_mem hb
  have hdd : (s.drop i).drop len = s.drop (i + len) := by
    rw [List.drop_drop]
  simp only [patterns, List.mem_cons, List.not_mem_nil, or_false] at hmem
  rcases hmem with rfl | rfl | rfl | rfl
  · simp only [tryBold] at hp
    match hm : matchBold (s.drop i) with
    | none => rw [hm] at hp; cases hp
    | some (inner, len0) =>
      rw [hm] at hp
      simp only [Option.map_some', Option.some.injEq, Prod.mk.injEq] at hp
      obtain ⟨hsp, hlen⟩ := hp
      obtain ⟨after, hsh, hl0⟩ := matchBold_shape _ _ _ hm
      have hlm : ('*' :: '*' :: inner ++ ['*', '*'] : List Char).length = len := by
        simp only [List.length_append, List.length_cons, List.length_nil]
        omega
      have hafter : s.drop (i + len) = after := by
        rw [← hdd, hsh, ← hlm]
        exact List.drop_left _ _
      refine ⟨'*' :: '*' :: inner ++ ['*', '*'], ?_, hlm, by omega, ?_⟩
      · rw [hsh, hafter]
      · rw [← hsp]
        simp only [spanText, List.cons_append, List.append_assoc]
        exact List.sublist_cons_of_sublist _ (List.sublist_cons_of_sublist _
          (List.sublist_append_left _ _))
  · simp only [tryItalic] at hp
    match hm : matchItalic (s.drop i) with
    | none => rw [hm] at hp; cases hp
    | some (inner, len0) =>
      rw [hm] at hp
      simp only [Option.map_some', Option.some.injEq, Prod.mk.injEq] at hp
      obtain ⟨hsp, hlen⟩ := hp
      obtain ⟨after, hsh, hl0⟩ := matchItalic_shape _ _ _ hm
      have hlm : ('*' :: inner ++ ['*'] : List Char).length = len := by
        simp only [List.length_append, List.length_cons, List.length_nil]
        omega
      have hafter : s.drop (i + len) = after := by
        rw [← hdd, hsh, ← hlm]
        exact List.drop_left _ _
      refine ⟨'*' :: inner ++ ['*'], ?_, hlm, by omega, ?_⟩
      · rw [hsh, hafter]
      · rw [← hsp]
        simp only [spanText, List.cons_append, List.append_assoc]
        exact List.sublist_cons_of_sublist _ (List.sublist_append_left _ _)
  · simp only [tryCode] at hp
    match hm : matchCode (s.drop i) with
    | none => rw [hm] at hp; cases hp
    | some (inner, len0) =>
      rw [hm] at hp
      simp only [Option.map_some', Option.some.injEq, Prod.mk.injEq] at hp
      obtain ⟨hsp, hlen⟩ := hp
      obtain ⟨after, hsh, hl0⟩ := matchCode_shape _ _ _ hm
      have hlm : (btick :: inner ++ [btick] : List Char).length = len := by
        simp only [List.length_append, List.length_cons, List.length_nil]
        omega
      have hafter : s.drop (i + len) = after := by
        rw [← hdd, hsh, ← hlm]
        exact List.drop_left _ _
      refine ⟨btick :: inner ++ [btick], ?_, hlm, by omega, ?_⟩
      · rw [hsh, hafter]
      · rw [← hsp]
        simp only [spanText, List.cons_append, List.append_assoc]
        exact List.sublist_cons_of_sublist _ (List.sublist_append_left _ _)
  · simp only [tryLink] at hp
    match hm : matchLink (s.drop i) with
    | none => rw [hm] at hp; cases hp
    | some (g1, g2, len0) =>
      rw [hm] at hp
      simp only [Option.map_some', Option.some.injEq, Prod.mk.injEq] at hp
      obtain ⟨hsp, hlen⟩ := hp
      obtain ⟨after, hsh, hl0⟩ := matchLink_shape _ _ _ _ hm
      have hlm : ('[' :: g1 ++ ']' :: '(' :: g2 ++ [')'] : List Char).length = len := by
        simp only [List.length_append, List.length_cons, List.length_nil]
        omega
      have hafter : s.drop (i + len) = after := by
        rw [← hdd, hsh, ← hlm]
        exact List.drop_left _ _
      refine ⟨'[' :: g1 ++ ']' :: '(' :: g2 ++ [')'], ?_, hlm, by omega, ?_⟩
      · rw [hsh, hafter]
      · rw [← hsp]
        simp only [spanText, List.cons_append, List.append_assoc]
        exact List.sublist_cons_of_sublist _ (List.sublist_append_left _ _)

/-! ## Concatenation of emitted span texts -/

theorem concatTexts_nil : concatTexts [] = [] := rfl

theorem concatTexts_cons (sp : Inline) (l : List Inline) :
    concatTexts (sp :: l) = spanText sp ++ concatTexts l := by
  simp [concatTexts]

theorem concatTexts_append (a b : List Inline) :
    concatTexts (a ++ b) = concatTexts a ++ concatTexts b := by
  simp [concatTexts]

theorem findEarliest_nil : findEarliest [] = none := rfl

theorem parseInlineAux_concat_sublist :
    ∀ fuel s, s.length < fuel →
      List.Sublist (concatTexts (parseInlineAux fuel s)) s := by
  intro fuel
  induction fuel with
  | zero => intro s hs; omega
  | succ fuel ih =>
    intro s hs
    simp only [parseInlineAux]
    match hfe : findEarliest s with
    | none =>
      by_cases he : s.isEmpty
      · simp [he, concatTexts_nil]
      · rw [if_neg he]
        rw [show concatTexts [Inline.text s] = s by simp [concatTexts, spanText]]
    | some (i, sp, len) =>
      have hne : s ≠ [] := by
        intro he
        rw [he, findEarliest_nil] at hfe
        cases hfe
      have hpos : 0 < s.length := List.length_pos.mpr hne
      obtain ⟨m, hsh, hml, hl1, hsub⟩ := findEarliest_shape s i sp len hfe
      have hrec : List.Sublist (concatTexts (parseInlineAux fuel (s.drop (i + len))))
          (s.drop (i + len)) := by
        refine ih _ ?_
        rw [List.length_drop]
        omega
      have hs2 : s = s.take i ++ (m ++ s.drop (i + len)) := by
        rw [← hsh, List.take_append_drop]
      have hcc : concatTexts ((if 0 < i then [Inline.text (s.take i)] else []) ++
          sp :: parseInlineAux fuel (s.drop (i + len))) =
          s.take i ++ (spanText sp ++ concatTexts (parseInlineAux fuel (s.drop (i + len)))) := by
        rcases Nat.eq_zero_or_pos i with hi | hi
        · simp [hi, concatTexts_append, concatTexts_cons]
        · rw [if_pos hi, concatTexts_append, concatTexts_cons]
          simp [concatTexts, spanText]
      rw [hcc]
      calc List.Sublist (s.take i ++ (spanText sp ++
            concatTexts (parseInlineAux fuel (s.drop (i + len)))))
            (s.take i ++ (m ++ s.drop (i + len))) :=
          List.Sublist.append (List.Sublist.refl _) (List.Sublist.append hsub hrec)
        _ = s := hs2.symm

/-- C1 (amended, general part): the concatenated `text` fields of the
spans emitted by `parse_inline_formatting` form a subsequence of the
input line (no character duplicated, order preserved), and they equal
the line exactly whenever no inline pattern matches anywhere in it. -/
theorem parse_inline_concat_sublist (text : List Char) :
    List.Sublist (concatTexts (parse_inline_formatting text)) text ∧
    (findEarliest text = none →
      concatTexts (parse_inline_formatting text) = text) := by
  constructor
  · simp only [parse_inline_formatting]
    split
    · next he =>
      rw [show concatTexts [Inline.text text] = text by simp [concatTexts, spanText]]
    · exact parseInlineAux_concat_sublist (text.length + 1) text (by omega)
  · intro hfe
    simp only [parse_inline_formatting, parseInlineAux, hfe]
    by_cases he : text.isEmpty
    · rw [List.isEmpty_iff.mp he]
      simp [concatTexts, spanText]
    · rw [if_neg he]
      simp [concatTexts, spanText]

/-- C1 (counterexample): on the line `"**bold**"` the concatenated
`text` fields of the emitted spans are `"bold"`, not the original
line — the pattern delimiters are dropped, so the spans do not
reconstruct the input exactly as the claim states. -/
theorem claim1_counterexample :
    concatTexts (parse_inline_formatting "**bold**".data) ≠ "**bold**".data := by
  decide

/-- C1 (amended): the concatenated `text` fields of the spans emitted
by `parse_inline_formatting` form a subsequence of the input line —
no character is duplicated or reordered, but the delimiter characters
and link URLs of matched patterns are dropped — and the concatenation
equals the input line exactly whenever no inline pattern matches in
it. -/
theorem claim1_amended (text : List Char) :
    List.Sublist (concatTexts (parse_inline_formatting text)) text ∧
    (findEarliest text = none →
      concatTexts (parse_inline_formatting text) = text) :=
  parse_inline_concat_sublist text

/-- Witness for C1 (amended) at the concrete line `"no markup here"`:
no pattern matches, and the concatenation reproduces the line. -/
theorem claim1_amended_witness :
    List.Sublist (concatTexts (parse_inline_formatting "no markup here".data))
      "no markup here".data ∧
    concatTexts (parse_inline_formatting "no markup here".data) =
      "no markup here".data :=
  ⟨(claim1_amended "no markup here".data).1,
   (claim1_amended "no markup here".data).2 (by decide)⟩

/-- C2: whenever the pattern loop selects a match, the selected match
starts at an offset before which no pattern matches at all in the
remaining text, the selected pattern actually matches there, and all
patterns earlier in declaration order fail at that offset; moreover on
`"**bold**"` the bold pattern wins over the italic pattern although
both match at offset 0. -/
theorem claim2_tiebreak :
    (∀ (s : List Char) (i : Nat) (r : Inline × Nat),
      findEarliest s = some (i, r) →
        (∃ (k : Nat) (p : List Char → Option (Inline × Nat)),
          patterns[k]? = some p ∧ p (s.drop i) = some r ∧
          (∀ (k' : Nat) (p' : List Char → Option (Inline × Nat)),
            k' < k → patterns[k']? = some p' → p' (s.drop i) = none)) ∧
        (∀ i', i' < i → ∀ p ∈ patterns, p (s.drop i') = none)) ∧
    (parse_inline_formatting "**bold**".data =
        [Inline.styled "bold".data Mark.strong] ∧
      tryBold "**bold**".data = some (Inline.styled "bold".data Mark.strong, 8) ∧
      tryItalic "**bold**".data = some (Inline.styled [] Mark.em, 2)) :=
  ⟨findEarliest_spec, by decide, by decide, by decide⟩

/-- Witness for C2 at the concrete input `"**bold**"`, offset 0: the
winning pattern is the bold pattern (table index 0), and no earlier
pattern exists. -/
theorem claim2_tiebreak_witness :
    (∃ (k : Nat) (p : List Char → Option (Inline × Nat)),
      patterns[k]? = some p ∧
      p ("**bold**".data.drop 0) = some (Inline.styled "bold".data Mark.strong, 8) ∧
      (∀ (k' : Nat) (p' : List Char → Option (Inline × Nat)),
        k' < k → patterns[k']? = some p' → p' ("**bold**".data.drop 0) = none)) ∧
    (∀ i', i' < 0 → ∀ p ∈ patterns, p ("**bold**".data.drop i') = none) :=
  claim2_tiebreak.1 "**bold**".data 0
    (Inline.styled "bold".data Mark.strong, 8) (by decide)

/-- C10: the non-greedy patterns accept empty inner content, so the
line `"**"` parses as a single italic span with empty text; the
asterisks appear in no emitted `text` field (the concatenation of all
emitted text is empty). -/
theorem claim10_empty_delims :
    parse_inline_formatting "**".data = [Inline.styled [] Mark.em] ∧
    concatTexts (parse_inline_formatting "**".data) = [] := by
  constructor
  · decide
  · decide

/-! ## Block parser: blank and sentinel inputs -/

theorem rstripLine_of_all_space {l : List Char} (h : ∀ c ∈ l, isPySpace c) :
    rstripLine l = [] := by
  unfold rstripLine
  rw [List.dropWhile_eq_nil_iff.mpr (fun c hc => h c (List.mem_reverse.mp hc))]
  rfl

theorem splitLines_mem_subset :
    ∀ s line, line ∈ splitLines s → ∀ c ∈ line, c ∈ s := by
  intro s
  induction s with
  | nil =>
    intro line hl c hc
    simp only [splitLines, List.mem_singleton] at hl
    rw [hl] at hc
    cases hc
  | cons a rest ih =>
    intro line hl c hc
    simp only [splitLines] at hl
    split at hl
    · rcases List.mem_cons.mp hl with he | hm
      · rw [he] at hc; cases hc
      · exact List.mem_cons_of_mem a (ih line hm c hc)
    · split at hl
      · next l ls hsp =>
        rcases List.mem_cons.mp hl with he | hm
        · rw [he] at hc
          rcases List.mem_cons.mp hc with hce | hcm
          · rw [hce]; exact List.mem_cons_self a rest
          · refine List.mem_cons_of_mem a (ih l ?_ c hcm)
            rw [hsp]
            exact List.mem_cons_self l ls
        · refine List.mem_cons_of_mem a (ih line ?_ c hc)
          rw [hsp]
          exact List.mem_cons_of_mem l hm
      · next hsp =>
        rw [List.mem_singleton.mp hl] at hc
        rcases List.mem_cons.mp hc with hce | hcm
        · rw [hce]; exact List.mem_cons_self a rest
        · cases hcm

theorem flush_list_empty : flush_list ([], []) = ([], []) := rfl

theorem processLine_of_blank {st : ConvState} {l : List Char}
    (h : rstripLine l = []) : processLine st l = flush_list st := by
  unfold processLine
  rw [h]
  rfl

theorem foldl_processLine_blank {lines : List (List Char)}
    (h : ∀ l ∈ lines, rstripLine l = []) :
    lines.foldl processLine ([], []) = ([], []) := by
  induction lines with
  | nil => rfl
  | cons l ls ih =>
    rw [List.foldl_cons, processLine_of_blank (h l (List.mem_cons_self l ls)),
      flush_list_empty]
    exact ih (fun x hx => h x (List.mem_cons_of_mem l hx))

theorem convert_of_all_space {s : List Char} (h : ∀ c ∈ s, isPySpace c) :
    convert_markdown_to_jira s = [] := by
  by_cases he : s.isEmpty
  · rw [List.isEmpty_iff.mp he]; rfl
  · unfold convert_markdown_to_jira
    have hstrip : pyStrip s = [] := by
      unfold pyStrip
      exact rstripLine_of_all_space
        (fun c hc => h c ((List.dropWhile_sublist _).subset hc))
    rw [if_neg, foldl_processLine_blank, flush_list_empty]
    · intro l hl
      exact rstripLine_of_all_space
        (fun c hc => h c (splitLines_mem_subset s l hl c hc))
    · simp only [Bool.or_eq_true, decide_eq_true_eq, hstrip]
      rintro (h1 | h2)
      · exact he h1
      · exact absurd h2.symm (by decide)

/-- C3: the block parser on `"# Title\n\n- a\n- b\n\nPara text"`
yields exactly a level-1 heading, one bullet list with the two items,
and a paragraph, in this order; the blank lines produce no blocks. -/
theorem claim3_block_example :
    convert_markdown_to_jira "# Title\n\n- a\n- b\n\nPara text".data =
      [Block.heading 1 [Inline.text "Title".data],
       Block.bulletList [[Inline.text "a".data], [Inline.text "b".data]],
       Block.paragraph [Inline.text "Para text".data]] := rfl

/-- C5: the empty input, the sentinel `"No description provided"`,
and every whitespace-only input produce an empty block sequence (the
embedding is a total function, so no error is possible). -/
theorem claim5_empty_inputs :
    convert_markdown_to_jira [] = [] ∧
    convert_markdown_to_jira "No description provided".data = [] ∧
    (∀ s : List Char, (∀ c ∈ s, isPySpace c) →
      convert_markdown_to_jira s = []) :=
  ⟨rfl, rfl, fun _ h => convert_of_all_space h⟩

/-- Witness for C5 at the concrete whitespace-only input `" \t "`. -/
theorem claim5_empty_inputs_witness :
    convert_markdown_to_jira " \t ".data = [] :=
  claim5_empty_inputs.2.2 " \t ".data (by decide)

/-! ## Block parser: trailing blank lines -/

theorem splitLines_ne_nil : ∀ s, splitLines s ≠ [] := by
  intro s
  induction s with
  | nil => simp [splitLines]
  | cons c rest ih =>
    simp only [splitLines]
    split
    · simp
    · split
      · simp
      · simp

theorem splitLines_append_newline :
    ∀ s, splitLines (s ++ ['\n']) = splitLines s ++ [[]] := by
  intro s
  induction s with
  | nil => rfl
  | cons c rest ih =>
    by_cases hc : c = '\n'
    · subst hc
      show splitLines ('\n' :: (rest ++ ['\n'])) = splitLines ('\n' :: rest) ++ [[]]
      rw [show ∀ X, splitLines ('\n' :: X) = [] :: splitLines X from fun X => rfl,
        show ∀ X, splitLines ('\n' :: X) = [] :: splitLines X from fun X => rfl,
        ih]
      rfl
    · match hsp : splitLines rest with
      | [] => exact absurd hsp (splitLines_ne_nil rest)
      | l :: ls =>
        show splitLines (c :: (rest ++ ['\n'])) = splitLines (c :: rest) ++ [[]]
        have hstep : ∀ X, splitLines (c :: X) =
            match splitLines X with
            | l :: ls => (c :: l) :: ls
            | [] => [[c]] := by
          intro X
          simp only [splitLines, if_neg hc]
        rw [hstep, hstep, ih, hsp]
        rfl

theorem splitLines_append_newlines :
    ∀ n s, splitLines (s ++ List.replicate n '\n') =
      splitLines s ++ List.replicate n [] := by
  intro n
  induction n with
  | zero => intro s; simp
  | succ n ih =>
    intro s
    calc splitLines (s ++ List.replicate (n + 1) '\n')
        = splitLines ((s ++ ['\n']) ++ List.replicate n '\n') := by
          rw [List.replicate_succ, List.append_cons]
      _ = splitLines (s ++ ['\n']) ++ List.replicate n [] := ih _
      _ = (splitLines s ++ [[]]) ++ List.replicate n [] := by
          rw [splitLines_append_newline]
      _ = splitLines s ++ List.replicate (n + 1) [] := by
          rw [List.replicate_succ, List.append_assoc]
          rfl

theorem flush_list_idem (st : ConvState) :
    flush_list (flush_list st) = flush_list st := by
  by_cases h : st.2.isEmpty <;> simp [flush_list, h]

theorem processLine_nil_line (st : ConvState) :
    processLine st [] = flush_list st := rfl

theorem foldl_replicate_blank : ∀ n (st : ConvState),
    flush_list ((List.replicate n ([] : List Char)).foldl processLine st) =
      flush_list st := by
  intro n
  induction n with
  | zero => intro st; rfl
  | succ n ih =>
    intro st
    rw [List.replicate_succ, List.foldl_cons, processLine_nil_line, ih,
      flush_list_idem]

theorem dropWhile_replicate_newline (n : Nat) :
    (List.replicate n '\n').dropWhile isPySpace = [] :=
  List.dropWhile_eq_nil_iff.mpr
    (fun c hc => by rw [(List.mem_replicate.mp hc).2]; decide)

theorem rstripLine_append_newlines (s : List Char) (n : Nat) :
    rstripLine (s ++ List.replicate n '\n') = rstripLine s := by
  unfold rstripLine
  rw [List.reverse_append, List.reverse_replicate, List.dropWhile_append,
    dropWhile_replicate_newline]
  simp

theorem pyStrip_append_newlines (s : List Char) (n : Nat) :
    pyStrip (s ++ List.replicate n '\n') = pyStrip s := by
  unfold pyStrip
  rw [List.dropWhile_append]
  by_cases h : (s.dropWhile isPySpace).isEmpty
  · rw [if_pos h, dropWhile_replicate_newline, List.isEmpty_iff.mp h]
  · rw [if_neg h]
    exact rstripLine_append_newlines _ n

theorem convert_unfold_neg {s : List Char} (h1 : ¬s.isEmpty = true)
    (h2 : pyStrip s ≠ sentinel) :
    convert_markdown_to_jira s =
      (flush_list ((splitLines s).foldl processLine ([], []))).1 := by
  unfold convert_markdown_to_jira
  rw [if_neg]
  simp only [Bool.or_eq_true, decide_eq_true_eq]
  rintro (ha | hb)
  · exact h1 ha
  · exact h2 hb

/-- C9: appending `n` trailing newline characters (each creating one
more trailing blank line) to any input never changes the number of
blocks the block parser produces. -/
theorem claim9_trailing_blanks (text : List Char) (n : Nat) :
    (convert_markdown_to_jira (text ++ List.replicate n '\n')).length =
      (convert_markdown_to_jira text).length := by
  by_cases he : text.isEmpty
  · rw [List.isEmpty_iff.mp he, List.nil_append,
      convert_of_all_space (fun c hc => by rw [(List.mem_replicate.mp hc).2]; decide)]
    rfl
  · by_cases hsent : pyStrip text = sentinel
    · have h1 : convert_markdown_to_jira text = [] := by
        unfold convert_markdown_to_jira
        rw [if_pos]
        simp [hsent]
      have h2 : convert_markdown_to_jira (text ++ List.replicate n '\n') = [] := by
        unfold convert_markdown_to_jira
        rw [if_pos]
        simp [pyStrip_append_newlines, hsent]
      rw [h1, h2]
    · have hne : text ≠ [] := by
        intro hh
        exact he (by rw [hh]; rfl)
      have happ : ¬(text ++ List.replicate n '\n').isEmpty = true := by
        simp only [List.isEmpty_iff, List.append_eq_nil]
        rintro ⟨hh, _⟩
        exact hne hh
      rw [convert_unfold_neg he hsent,
        convert_unfold_neg happ (by rw [pyStrip_append_newlines]; exact hsent),
        splitLines_append_newlines, List.foldl_append, foldl_replicate_blank]

/-! ## Document assembler -/

theorem convert_of_strip_sentinel {s : List Char} (h : pyStrip s = sentinel) :
    convert_markdown_to_jira s = [] := by
  unfold convert_markdown_to_jira
  rw [if_pos]
  simp [h]

/-- C6: `create_jira_document` produces no document when any required
metadata field (author name, source branch, target branch, state,
created-at) is absent, and always produces one when all of them are
present. -/
theorem claim6_required_metadata (mr_url : List Char) (d : MRData)
    (pd : Option (List Char)) :
    ((d.author = none ∨ (∃ a, d.author = some a ∧ a.name = none) ∨
      d.source_branch = none ∨ d.target_branch = none ∨
      d.state = none ∨ d.created_at = none) →
      create_jira_document mr_url d pd = none) ∧
    ((∃ a nm, d.author = some a ∧ a.name = some nm) →
      d.source_branch ≠ none → d.target_branch ≠ none →
      d.state ≠ none → d.created_at ≠ none →
      (create_jira_document mr_url d pd).isSome) := by
  constructor
  · rintro (ha | ⟨a, ha, hn⟩ | hb | hc | hd | hee) <;>
      simp_all [create_jira_document, Option.bind_eq_bind]
  · rintro ⟨a, nm, ha, hn⟩ hsb htb hst hca
    obtain ⟨sbv, hsbv⟩ := Option.ne_none_iff_exists'.mp hsb
    obtain ⟨tbv, htbv⟩ := Option.ne_none_iff_exists'.mp htb
    obtain ⟨stv, hstv⟩ := Option.ne_none_iff_exists'.mp hst
    obtain ⟨cav, hcav⟩ := Option.ne_none_iff_exists'.mp hca
    simp [create_jira_document, ha, hn, hsbv, htbv, hstv, hcav,
      Option.bind_eq_bind]

/-- Witness for C6: a record missing the author fails; a complete
record succeeds. -/
theorem claim6_required_metadata_witness :
    create_jira_document "u".data
      ⟨none, some "s".data, some "t".data, some "o".data, some "c".data⟩
      none = none ∧
    (create_jira_document "u".data
      ⟨some ⟨some "a".data⟩, some "s".data, some "t".data, some "o".data,
        some "c".data⟩ none).isSome := by
  constructor
  · exact (claim6_required_metadata "u".data _ none).1 (Or.inl rfl)
  · exact (claim6_required_metadata "u".data _ none).2 ⟨_, _, rfl, rfl⟩
      (by simp) (by simp) (by simp) (by simp)

/-- C4: every document produced by `create_jira_document` starts with
the fixed "Created from" paragraph followed by a rule, ends with the
info panel, and contains a second rule between the converted body and
the panel exactly when the converted body is non-empty. -/
theorem claim4_document_shape (mr_url : List Char) (d : MRData)
    (pd : Option (List Char)) (doc : Document)
    (h : create_jira_document mr_url d pd = some doc) :
    ∃ an sb tb st ca,
      d.author = some ⟨some an⟩ ∧ d.source_branch = some sb ∧
      d.target_branch = some tb ∧ d.state = some st ∧ d.created_at = some ca ∧
      doc.content =
        headerParagraph mr_url :: Block.rule ::
          (convert_markdown_to_jira (origDescription pd) ++
            ((if (convert_markdown_to_jira (origDescription pd)).isEmpty
              then [] else [Block.rule]) ++
              [mrDetailsPanel an sb tb st ca])) ∧
      doc.content.head? = some (headerParagraph mr_url) ∧
      doc.content.getLast? = some (mrDetailsPanel an sb tb st ca) := by
  obtain ⟨auth, sb, tb, st, ca⟩ := d
  match auth with
  | none => simp [create_jira_document, Option.bind_eq_bind] at h
  | some a =>
    match ha : a.name with
    | none => simp [create_jira_document, ha, Option.bind_eq_bind] at h
    | some an =>
      match sb with
      | none => simp [create_jira_document, ha, Option.bind_eq_bind] at h
      | some sbv =>
        match tb with
        | none => simp [create_jira_document, ha, Option.bind_eq_bind] at h
        | some tbv =>
          match st with
          | none => simp [create_jira_document, ha, Option.bind_eq_bind] at h
          | some stv =>
            match ca with
            | none => simp [create_jira_document, ha, Option.bind_eq_bind] at h
            | some cav =>
              have hname : a = ⟨some an⟩ := by
                cases a
                cases ha
                rfl
              simp only [create_jira_document, ha, Option.bind_eq_bind,
                Option.some_bind, Option.pure_def, Option.some.injEq] at h
              have hbody :
                  (if pyStrip (origDescription pd) ≠ sentinel then
                    let mc := convert_markdown_to_jira (origDescription pd)
                    mc ++ (if mc.isEmpty then [] else [Block.rule])
                  else []) =
                  convert_markdown_to_jira (origDescription pd) ++
                    (if (convert_markdown_to_jira (origDescription pd)).isEmpty
                     then [] else [Block.rule]) := by
                by_cases hs : pyStrip (origDescription pd) = sentinel
                · rw [if_neg (by simpa using hs), convert_of_strip_sentinel hs]
                  rfl
                · rw [if_pos hs]
              rw [hbody] at h
              rw [← h]
              refine ⟨an, sbv, tbv, stv, cav, by rw [hname], rfl, rfl, rfl, rfl,
                ?_, ?_, ?_⟩
              · simp
              · rfl
              · exact List.getLast?_concat _

/-- Witness for C4 at a concrete metadata record with no description:
the produced document is the lead paragraph, one rule, and the panel. -/
theorem claim4_document_shape_witness :
    ∃ an sb tb st ca,
      some (⟨some "a".data⟩ : Author) = some (⟨some an⟩ : Author) ∧
      some "s".data = some sb ∧
      some "t".data = some tb ∧
      some "o".data = some st ∧
      some "c".data = some ca ∧
      ([headerParagraph "u".data, Block.rule,
         mrDetailsPanel "a".data "s".data "t".data "o".data "c".data] =
        headerParagraph "u".data :: Block.rule ::
          (convert_markdown_to_jira (origDescription none) ++
            ((if (convert_markdown_to_jira (origDescription none)).isEmpty
              then [] else [Block.rule]) ++
              [mrDetailsPanel an sb tb st ca]))) ∧
      ([headerParagraph "u".data, Block.rule,
         mrDetailsPanel "a".data "s".data "t".data "o".data "c".data].head? =
        some (headerParagraph "u".data)) ∧
      ([headerParagraph "u".data, Block.rule,
         mrDetailsPanel "a".data "s".data "t".data "o".data "c".data].getLast? =
        some (mrDetailsPanel an sb tb st ca)) :=
  claim4_document_shape "u".data
    ⟨some ⟨some "a".data⟩, some "s".data, some "t".data, some "o".data,
      some "c".data⟩ none
    ⟨1, [headerParagraph "u".data, Block.rule,
      mrDetailsPanel "a".data "s".data "t".data "o".data "c".data]⟩ rfl

/-! ## Image rewriter: matcher shape and rebuild -/

theorem takeWhile_append_stop (q : Char → Bool) :
    ∀ (l : List Char) (b : Char) (r : List Char), (∀ c ∈ l, q c) → ¬ q b →
      (l ++ b :: r).takeWhile q = l ∧ (l ++ b :: r).dropWhile q = b :: r := by
  intro l
  induction l with
  | nil =>
    intro b r _ hb
    simp only [List.nil_append, List.takeWhile_cons, List.dropWhile_cons]
    rw [if_neg hb, if_neg hb]
    exact ⟨rfl, rfl⟩
  | cons a t ih =>
    intro b r hl hb
    have ha : q a := hl a (List.mem_cons_self a t)
    have ht : ∀ c ∈ t, q c := fun c hc => hl c (List.mem_cons_of_mem a hc)
    obtain ⟨h1, h2⟩ := ih b r ht hb
    simp only [List.cons_append, List.takeWhile_cons, List.dropWhile_cons]
    rw [if_pos ha, if_pos ha, h1, h2]
    exact ⟨rfl, rfl⟩

theorem dropWhile_head_not (q : Char → Bool) :
    ∀ (l : List Char) (d : Char) (tail : List Char),
      l.dropWhile q = d :: tail → ¬ q d = true := by
  intro l
  induction l with
  | nil => intro d tail h; cases h
  | cons a t ih =>
    intro d tail h
    simp only [List.dropWhile_cons] at h
    split at h
    · exact ih d tail h
    · next hq =>
      obtain ⟨h1, _⟩ := List.cons.injEq a t d tail ▸ h
      exact h1 ▸ hq

theorem braceSuffixLen_decomp (r5 : List Char) :
    ∃ brace rest2, r5 = brace ++ rest2 ∧ braceSuffixLen r5 = brace.length ∧
      (brace = [] ∨ ∃ inner, brace = '{' :: (inner ++ ['}']) ∧
        ∀ c ∈ inner, c ≠ '}') := by
  match r5 with
  | [] => exact ⟨[], [], rfl, rfl, Or.inl rfl⟩
  | c :: rest =>
    by_cases hc : c = '{'
    · subst hc
      match hdw : rest.dropWhile (· ≠ '}') with
      | [] =>
        refine ⟨[], '{' :: rest, rfl, ?_, Or.inl rfl⟩
        simp only [braceSuffixLen, if_pos rfl, hdw]
        simp
      | d :: tail2 =>
        have hd : d = '}' := by
          have := dropWhile_head_not _ rest d tail2 hdw
          simpa using this
        subst hd
        have hsplit : rest = rest.takeWhile (· ≠ '}') ++ '}' :: tail2 := by
          conv_lhs => rw [← List.takeWhile_append_dropWhile (fun x => decide (x ≠ '}')) rest]
          rw [hdw]
        refine ⟨'{' :: (rest.takeWhile (· ≠ '}') ++ ['}']), tail2, ?_, ?_,
          Or.inr ⟨rest.takeWhile (· ≠ '}'), rfl, ?_⟩⟩
        · conv_lhs => rw [hsplit]
          simp
        · simp only [braceSuffixLen, if_pos rfl, hdw, if_pos rfl]
          simp
        · intro x hx
          have := List.mem_takeWhile_imp hx
          simpa using this
    · refine ⟨[], c :: rest, rfl, ?_, Or.inl rfl⟩
      simp only [braceSuffixLen]
      split
      · next h1 => exact absurd h1 hc
      · rfl

theorem braceSuffixLen_closed (inner : List Char) (hin : ∀ c ∈ inner, c ≠ '}') :
    braceSuffixLen ('{' :: (inner ++ ['}'])) = inner.length + 2 := by
  have ht2 := takeWhile_append_stop (fun c => decide (c ≠ '}')) inner '}' []
    (fun c hc => by simpa using hin c hc) (by simp)
  simp only [braceSuffixLen]
  rw [if_pos trivial]
  rw [show List.dropWhile (fun c => decide (c ≠ '}')) (inner ++ ['}']) =
    ['}'] from ht2.2]
  rw [show List.takeWhile (fun c => decide (c ≠ '}')) (inner ++ ['}']) =
    inner from ht2.1]
  rfl

theorem imageMatchAt_build (alt p brace : List Char)
    (halt : ∀ c ∈ alt, c ≠ ']') (hp : ∀ c ∈ p, c ≠ ')') (hpne : p ≠ [])
    (hbrace : brace = [] ∨ ∃ inner, brace = '{' :: (inner ++ ['}']) ∧
      ∀ c ∈ inner, c ≠ '}') :
    imageMatchAt
        ('!' :: '[' :: (alt ++ ']' :: '(' :: (uploadsChars ++ (p ++ ')' :: brace)))) =
      some (alt, uploadsChars ++ p,
        alt.length + uploadsChars.length + p.length + 5 + brace.length) := by
  have htd := takeWhile_append_stop (fun c => decide (c ≠ ']')) alt ']'
    ('(' :: (uploadsChars ++ (p ++ ')' :: brace)))
    (fun c hc => by simpa using halt c hc) (by simp)
  have htp := takeWhile_append_stop (fun c => decide (c ≠ ')')) p ')' brace
    (fun c hc => by simpa using hp c hc) (by simp)
  have hbl : braceSuffixLen brace = brace.length := by
    rcases hbrace with rfl | ⟨inner, hbeq, hin⟩
    · rfl
    · subst hbeq
      rw [braceSuffixLen_closed inner hin]
      simp
  simp only [imageMatchAt, if_pos (by simp : (('!' : Char) = '!' && ('[' : Char) = '[') = true)]
  rw [htd.1, htd.2]
  simp only [imageAfterAlt,
    if_pos (by simp : ((']' : Char) = ']' && ('(' : Char) = '(') = true)]
  rw [if_pos (List.isPrefixOf_iff_prefix.mpr ⟨p ++ ')' :: brace, rfl⟩)]
  rw [List.drop_left]
  simp only [imagePath]
  rw [htp.1, htp.2]
  have hpe : ¬(p.isEmpty = true) := by
    simp only [List.isEmpty_iff]
    exact hpne
  rw [if_neg hpe]
  simp only [imageClose]
  rw [hbl]
  simp

theorem subImagesAux_nil (g : List Char) (pid : Nat) (mode : List Char) :
    ∀ fuel, subImagesAux g pid mode fuel [] = [] := by
  intro fuel
  cases fuel <;> rfl

theorem subImagesAux_exact (g : List Char) (pid : Nat) (mode : List Char)
    (fuel : Nat) (s alt rel : List Char)
    (h : imageMatchAt s = some (alt, rel, s.length)) :
    subImagesAux g pid mode (fuel + 1) s = replace_image g pid mode alt rel := by
  match s with
  | [] => cases h
  | c :: rest =>
    simp only [subImagesAux]
    rw [h]
    show replace_image g pid mode alt rel ++
        subImagesAux g pid mode fuel ((c :: rest).drop (c :: rest).length) =
      replace_image g pid mode alt rel
    rw [List.drop_length, subImagesAux_nil]
    exact List.append_nil _

theorem process_single_image (base : List Char) (pid : Nat) (mode : List Char)
    (alt p : List Char) (halt : ∀ c ∈ alt, c ≠ ']') (hp : ∀ c ∈ p, c ≠ ')')
    (hpne : p ≠ []) :
    process_gitlab_description
        ('!' :: '[' :: (alt ++ ']' :: '(' :: (uploadsChars ++ (p ++ [')']))))
        base pid mode =
      replace_image base pid mode alt (uploadsChars ++ p) := by
  have hb := imageMatchAt_build alt p [] halt hp hpne (Or.inl rfl)
  have hlen : alt.length + uploadsChars.length + p.length + 5 +
      ([] : List Char).length =
      ('!' :: '[' :: (alt ++ ']' :: '(' :: (uploadsChars ++ (p ++ [')'])))).length := by
    simp only [List.length_append, List.length_cons, List.length_nil]
    omega
  rw [hlen] at hb
  unfold process_gitlab_description
  rw [if_neg (by simp)]
  exact subImagesAux_exact base pid mode _ _ _ _ hb

/-- C7: for an image reference `![alt](/uploads/...)` (any alt text
without a closing bracket, any non-empty path without a closing
parenthesis), strip mode replaces the whole match with
`[Image: <alt> - see original MR]`, jira-syntax mode wraps the
absolute URL (base, the fixed project segment, the numeric project
id, the relative path) in exclamation marks, and an empty alt text falls back
to the literal word `image`; in particular on
`"![x](/uploads/ab/c.png)"` the two modes produce exactly the claimed
strings. -/
theorem claim7_image_rewrite (base : List Char) (pid : Nat)
    (hbase : rstripSlash base = base) :
    (∀ alt p, (∀ c ∈ alt, c ≠ ']') → (∀ c ∈ p, c ≠ ')') → p ≠ [] →
      process_gitlab_description
          ('!' :: '[' :: (alt ++ ']' :: '(' :: (uploadsChars ++ (p ++ [')']))))
          base pid "strip".data =
        "[Image: ".data ++ (if alt.isEmpty then "image".data else alt) ++
          " - see original MR]".data ∧
      process_gitlab_description
          ('!' :: '[' :: (alt ++ ']' :: '(' :: (uploadsChars ++ (p ++ [')']))))
          base pid "jira-syntax".data =
        '!' :: (base ++ "/-/project/".data ++ natToChars pid ++
          (uploadsChars ++ p)) ++ ['!']) ∧
    process_gitlab_description "![x](/uploads/ab/c.png)".data base pid
        "strip".data = "[Image: x - see original MR]".data ∧
    process_gitlab_description "![x](/uploads/ab/c.png)".data base pid
        "jira-syntax".data =
      '!' :: (base ++ "/-/project/".data ++ natToChars pid ++
        "/uploads/ab/c.png".data) ++ ['!'] ∧
    process_gitlab_description "![](/uploads/ab/c.png)".data base pid
        "strip".data = "[Image: image - see original MR]".data := by
  have hgen : ∀ alt p, (∀ c ∈ alt, c ≠ ']') → (∀ c ∈ p, c ≠ ')') → p ≠ [] →
      process_gitlab_description
          ('!' :: '[' :: (alt ++ ']' :: '(' :: (uploadsChars ++ (p ++ [')']))))
          base pid "strip".data =
        "[Image: ".data ++ (if alt.isEmpty then "image".data else alt) ++
          " - see original MR]".data ∧
      process_gitlab_description
          ('!' :: '[' :: (alt ++ ']' :: '(' :: (uploadsChars ++ (p ++ [')']))))
          base pid "jira-syntax".data =
        '!' :: (base ++ "/-/project/".data ++ natToChars pid ++
          (uploadsChars ++ p)) ++ ['!'] := by
    intro alt p halt hp hpne
    constructor
    · rw [process_single_image base pid "strip".data alt p halt hp hpne]
      unfold replace_image
      rw [if_pos rfl]
    · rw [process_single_image base pid "jira-syntax".data alt p halt hp hpne]
      unfold replace_image
      have hm1 : ¬(("jira-syntax".data : List Char) = "strip".data) := by decide
      rw [if_neg hm1, if_pos rfl, hbase]
  refine ⟨hgen, ?_, ?_, ?_⟩
  · exact (hgen "x".data "ab/c.png".data (by decide) (by decide) (by decide)).1
  · exact (hgen "x".data "ab/c.png".data (by decide) (by decide) (by decide)).2
  · exact (hgen [] "ab/c.png".data (by decide) (by decide) (by decide)).1

/-- Witness for C7 at base `https://gitlab.example.com`, project id
42: both modes and the empty-alt fallbacks on concrete input. -/
theorem claim7_image_rewrite_witness :
    process_gitlab_description "![x](/uploads/ab/c.png)".data
        "https://gitlab.example.com".data 42 "strip".data =
      "[Image: x - see original MR]".data ∧
    process_gitlab_description "![x](/uploads/ab/c.png)".data
        "https://gitlab.example.com".data 42 "jira-syntax".data =
      "!https://gitlab.example.com/-/project/42/uploads/ab/c.png!".data ∧
    process_gitlab_description "![](/uploads/ab/c.png)".data
        "https://gitlab.example.com".data 42 "strip".data =
      "[Image: image - see original MR]".data := by
  have h := claim7_image_rewrite "https://gitlab.example.com".data 42 (by decide)
  exact ⟨h.2.1, h.2.2.1, h.2.2.2⟩

/-! ## Image rewriter: frame decomposition -/

theorem imageClose_shape (alt p r4 a r : List Char) (len : Nat)
    (h : imageClose alt p r4 = some (a, r, len)) :
    ∃ r5, r4 = ')' :: r5 ∧ a = alt ∧ r = uploadsChars ++ p ∧
      len = alt.length + uploadsChars.length + p.length + 5 +
        braceSuffixLen r5 := by
  match r4 with
  | [] => cases h
  | e1 :: r5 =>
    simp only [imageClose] at h
    split at h
    · next he =>
      subst he
      simp only [Option.some.injEq, Prod.mk.injEq] at h
      exact ⟨r5, rfl, h.1.symm, h.2.1.symm, h.2.2.symm⟩
    · cases h

theorem imagePath_shape (alt r3 a r : List Char) (len : Nat)
    (h : imagePath alt r3 = some (a, r, len)) :
    ∃ p r5, r3 = p ++ ')' :: r5 ∧ (∀ c ∈ p, c ≠ ')') ∧ p ≠ [] ∧
      a = alt ∧ r = uploadsChars ++ p ∧
      len = alt.length + uploadsChars.length + p.length + 5 +
        braceSuffixLen r5 := by
  simp only [imagePath] at h
  split at h
  · cases h
  · next hne =>
    obtain ⟨r5, hr4, ha, hr, hlen⟩ := imageClose_shape _ _ _ _ _ _ h
    refine ⟨r3.takeWhile (· ≠ ')'), r5, ?_, ?_, ?_, ha, hr, hlen⟩
    · conv_lhs => rw [← List.takeWhile_append_dropWhile
        (fun c => decide (c ≠ ')')) r3]
      rw [hr4]
    · intro c hc
      simpa using List.mem_takeWhile_imp hc
    · simpa [List.isEmpty_iff] using hne

theorem imageAfterAlt_shape (alt r1 a r : List Char) (len : Nat)
    (h : imageAfterAlt alt r1 = some (a, r, len)) :
    ∃ p r5, r1 = ']' :: '(' :: (uploadsChars ++ (p ++ ')' :: r5)) ∧
      (∀ c ∈ p, c ≠ ')') ∧ p ≠ [] ∧ a = alt ∧ r = uploadsChars ++ p ∧
      len = alt.length + uploadsChars.length + p.length + 5 +
        braceSuffixLen r5 := by
  match r1 with
  | [] => cases h
  | [d] => simp [imageAfterAlt] at h
  | d1 :: d2 :: r2 =>
    simp only [imageAfterAlt] at h
    split at h
    · next hd =>
      split at h
      · next hpre =>
        obtain ⟨p, r5, hr3, hp, hpne, ha, hr, hlen⟩ :=
          imagePath_shape _ _ _ _ _ h
        obtain ⟨t, ht⟩ := List.isPrefixOf_iff_prefix.mp hpre
        have hd12 : d1 = ']' ∧ d2 = '(' := by simpa using hd
        rw [← ht, List.drop_left] at hr3
        refine ⟨p, r5, ?_, hp, hpne, ha, hr, hlen⟩
        rw [hd12.1, hd12.2, ← ht, hr3]
      · cases h
    · cases h

theorem imageMatchAt_shape (s a r : List Char) (len : Nat)
    (h : imageMatchAt s = some (a, r, len)) :
    ∃ alt p r5,
      s = '!' :: '[' :: (alt ++ ']' :: '(' :: (uploadsChars ++ (p ++ ')' :: r5))) ∧
      a = alt ∧ r = uploadsChars ++ p ∧
      (∀ c ∈ alt, c ≠ ']') ∧ (∀ c ∈ p, c ≠ ')') ∧ p ≠ [] ∧
      len = alt.length + uploadsChars.length + p.length + 5 +
        braceSuffixLen r5 := by
  match s with
  | [] => cases h
  | [c] => simp [imageMatchAt] at h
  | c1 :: c2 :: rest =>
    simp only [imageMatchAt] at h
    split at h
    · next hc =>
      obtain ⟨p, r5, hr1, hp, hpne, ha, hr, hlen⟩ :=
        imageAfterAlt_shape _ _ _ _ _ h
      have hc12 : c1 = '!' ∧ c2 = '[' := by simpa using hc
      refine ⟨rest.takeWhile (· ≠ ']'), p, r5, ?_, ha, hr, ?_, hp, hpne, hlen⟩
      · rw [hc12.1, hc12.2]
        conv_lhs => rw [show rest =
          rest.takeWhile (fun c => decide (c ≠ ']')) ++
            rest.dropWhile (fun c => decide (c ≠ ']')) from
          (List.takeWhile_append_dropWhile _ _).symm]
        rw [hr1]
      · intro c hc2
        simpa using List.mem_takeWhile_imp hc2
    · cases h

theorem imageMatchAt_take (s a r : List Char) (len : Nat)
    (h : imageMatchAt s = some (a, r, len)) :
    len ≤ s.length ∧ imageMatchAt (s.take len) = some (a, r, len) ∧
      1 ≤ len := by
  obtain ⟨alt, p, r5, hs, ha, hr, halt, hp, hpne, hlen⟩ :=
    imageMatchAt_shape s a r len h
  obtain ⟨brace, rest2, hr5, hbl, hbrace⟩ := braceSuffixLen_decomp r5
  have hm := imageMatchAt_build alt p brace halt hp hpne hbrace
  have hms : s =
      ('!' :: '[' :: (alt ++ ']' :: '(' :: (uploadsChars ++ (p ++ ')' :: brace)))) ++
        rest2 := by
    rw [hs, hr5]
    simp
  have hmlen :
      ('!' :: '[' :: (alt ++ ']' :: '(' :: (uploadsChars ++ (p ++ ')' :: brace)))).length =
        len := by
    simp only [List.length_append, List.length_cons, List.length_nil]
    rw [hbl] at hlen
    omega
  refine ⟨?_, ?_, ?_⟩
  · rw [hms, ← hmlen]
    simp
  · rw [hms, ← hmlen, List.take_left, hm, ha, hr, hmlen, hlen, hbl]
  · rw [hlen]
    omega

theorem subImagesAux_decomp (g : List Char) (pid : Nat) (mode : List Char) :
    ∀ fuel s, s.length < fuel →
      ∃ (segs : List ((List Char × List Char) × List Char)) (tail : List Char),
        s = ((segs.map fun x => x.1.1 ++ x.1.2).flatten) ++ tail ∧
        subImagesAux g pid mode fuel s =
          ((segs.map fun x => x.1.1 ++ x.2).flatten) ++ tail ∧
        ∀ x ∈ segs, ∃ alt rel,
          imageMatchAt x.1.2 = some (alt, rel, x.1.2.length) ∧
          x.2 = replace_image g pid mode alt rel := by
  intro fuel
  induction fuel with
  | zero => intro s hs; omega
  | succ fuel ih =>
    intro s hs
    match s with
    | [] => exact ⟨[], [], by simp, by rw [subImagesAux_nil]; simp, by simp⟩
    | c :: rest =>
      match hm : imageMatchAt (c :: rest) with
      | none =>
        obtain ⟨segs, tail, hdec, hout, hprops⟩ := ih rest
          (by simp only [List.length_cons] at hs; omega)
        have hstep : subImagesAux g pid mode (fuel + 1) (c :: rest) =
            c :: subImagesAux g pid mode fuel rest := by
          simp only [subImagesAux, hm]
        match segs with
        | [] =>
          refine ⟨[], c :: tail, ?_, ?_, by simp⟩
          · simp only [List.map_nil, List.flatten_nil, List.nil_append] at hdec ⊢
            rw [hdec]
          · rw [hstep, hout]
            simp
        | x :: xs =>
          refine ⟨((c :: x.1.1, x.1.2), x.2) :: xs, tail, ?_, ?_, ?_⟩
          · rw [show (c :: rest : List Char) = c :: rest from rfl, hdec]
            simp
          · rw [hstep, hout]
            simp
          · intro y hy
            rcases List.mem_cons.mp hy with he | hmem
            · obtain ⟨alt, rel, hmm, hrr⟩ := hprops x (List.mem_cons_self x xs)
              subst he
              exact ⟨alt, rel, hmm, hrr⟩
            · exact hprops y (List.mem_cons_of_mem x hmem)
      | some (a, r, len) =>
        obtain ⟨hle, htake, h1⟩ := imageMatchAt_take _ _ _ _ hm
        obtain ⟨segs, tail, hdec, hout, hprops⟩ := ih ((c :: rest).drop len)
          (by
            rw [List.length_drop]
            simp only [List.length_cons] at hs ⊢
            omega)
        have hstep : subImagesAux g pid mode (fuel + 1) (c :: rest) =
            replace_image g pid mode a r ++
              subImagesAux g pid mode fuel ((c :: rest).drop len) := by
          simp only [subImagesAux, hm]
        refine ⟨(([], (c :: rest).take len), replace_image g pid mode a r) :: segs,
          tail, ?_, ?_, ?_⟩
        · simp only [List.map_cons, List.flatten_cons, List.nil_append]
          rw [List.append_assoc, ← hdec]
          exact (List.take_append_drop len (c :: rest)).symm
        · rw [hstep, hout]
          simp
        · intro y hy
          rcases List.mem_cons.mp hy with he | hmem
          · have hlt : ((c :: rest).take len).length = len := by
              rw [List.length_take]
              omega
            subst he
            exact ⟨a, r, by rw [hlt]; exact htake, rfl⟩
          · exact hprops y hmem

/-- C8: the image rewriter changes nothing outside the matched image
references: every input decomposes into unmatched segments and
matched references, and the output is the same decomposition with
each matched reference replaced by its mode-specific replacement and
every unmatched character kept in order; the empty input is returned
unchanged for every mode. -/
theorem claim8_frame :
    (∀ (desc g : List Char) (pid : Nat) (mode : List Char),
      ∃ (segs : List ((List Char × List Char) × List Char)) (tail : List Char),
        desc = ((segs.map fun x => x.1.1 ++ x.1.2).flatten) ++ tail ∧
        process_gitlab_description desc g pid mode =
          ((segs.map fun x => x.1.1 ++ x.2).flatten) ++ tail ∧
        ∀ x ∈ segs, ∃ alt rel,
          imageMatchAt x.1.2 = some (alt, rel, x.1.2.length) ∧
          x.2 = replace_image g pid mode alt rel) ∧
    (∀ (g : List Char) (pid : Nat) (mode : List Char),
      process_gitlab_description [] g pid mode = []) := by
  constructor
  · intro desc g pid mode
    match desc with
    | [] => exact ⟨[], [], by simp, by simp [process_gitlab_description], by simp⟩
    | c :: rest =>
      have hpr : process_gitlab_description (c :: rest) g pid mode =
          subImagesAux g pid mode ((c :: rest).length + 1) (c :: rest) := by
        unfold process_gitlab_description
        rw [if_neg (by simp)]
      obtain ⟨segs, tail, h1, h2, h3⟩ := subImagesAux_decomp g pid mode
        ((c :: rest).length + 1) (c :: rest) (by omega)
      exact ⟨segs, tail, h1, by rw [hpr, h2], h3⟩
  · intro g pid mode
    rfl
